import Mathlib

/-!
Verification of the kapok streaming Wikipedia-dump parser (package `parse`,
file `parse.go`).  Strings are embedded as `List Char`; each pipeline stage
(a goroutine reading from and writing to channels in the source) is embedded
as a function from the list of items it would receive to the list of items
it would send before closing its output channel.
-/

namespace Kapok

/-- The characters of a string literal, used to write byte/string constants. -/
def chars (s : String) : List Char := s.data

/-! ### Generic string scanning primitives

`stripPre pat s` removes `pat` from the front of `s` if it is literally
there (the building block for all the literal-part matching below). -/

def stripPre : List Char → List Char → Option (List Char)
  | [], s => some s
  | _ :: _, [] => none
  | p :: ps, c :: cs => if c = p then stripPre ps cs else none

theorem stripPre_eq_some {pat s r : List Char} :
    stripPre pat s = some r ↔ s = pat ++ r := by
  induction pat generalizing s with
  | nil => simp [stripPre]
  | cons p ps ih =>
    cases s with
    | nil => simp [stripPre]
    | cons c cs =>
      by_cases h : c = p
      · subst h
        simp [stripPre, ih]
      · simp [stripPre, h, Ne.symm h]

theorem stripPre_self_append (pat r : List Char) :
    stripPre pat (pat ++ r) = some r :=
  stripPre_eq_some.mpr rfl

/-- `containsStr pat s`: `pat` occurs as a contiguous substring of `s`.
This is exactly what an unanchored Go `regexp.Match` against the literal
pattern `pat` (or against `.*pat.*`) tests. -/
def containsStr (pat : List Char) : List Char → Bool
  | [] => (stripPre pat []).isSome
  | c :: rest => (stripPre pat (c :: rest)).isSome || containsStr pat rest

/-- The mathematical substring-occurrence predicate. -/
def ContainsSub (pat s : List Char) : Prop := ∃ u v, s = u ++ pat ++ v

theorem containsStr_iff (pat s : List Char) :
    containsStr pat s = true ↔ ContainsSub pat s := by
  induction s with
  | nil =>
    simp only [containsStr, ContainsSub, Option.isSome_iff_exists]
    constructor
    · rintro ⟨r, hr⟩
      exact ⟨[], r, by simpa using stripPre_eq_some.mp hr⟩
    · rintro ⟨u, v, huv⟩
      have hu : u = [] := by
        cases u with
        | nil => rfl
        | cons a as => simp at huv
      subst hu
      exact ⟨v, stripPre_eq_some.mpr (by simpa using huv)⟩
  | cons c rest ih =>
    simp only [containsStr, Bool.or_eq_true, Option.isSome_iff_exists, ih]
    constructor
    · rintro (⟨r, hr⟩ | ⟨u, v, huv⟩)
      · exact ⟨[], r, by simpa using stripPre_eq_some.mp hr⟩
      · exact ⟨c :: u, v, by simp [huv]⟩
    · rintro ⟨u, v, huv⟩
      cases u with
      | nil =>
        exact Or.inl ⟨v, stripPre_eq_some.mpr (by simpa using huv)⟩
      | cons a as =>
        simp only [List.cons_append, List.cons.injEq] at huv
        exact Or.inr ⟨as, v, huv.2⟩

/-! ### The redirect matcher

Source: `var redirectRegex = regexp.MustCompile("#REDIRECT[ \t].*?\\[\\[.*?\\]\\]")`.
In Go, `.` matches any character except newline, so each `.*?` spans only
non-newline characters; an unanchored `Find` succeeds iff a match starts at
some position.  `scanPair a b s` performs the `.*?ab` part: it scans for the
two-character token `ab` without crossing a newline. -/

def scanPair (a b : Char) : List Char → Option (List Char)
  | [] => none
  | [_] => none
  | x :: y :: rest =>
    if x = a ∧ y = b then some rest
    else if x = '\n' then none
    else scanPair a b (y :: rest)

/-- A character matching the `[ \t]` class of the redirect pattern. -/
def spaceTab (c : Char) : Bool := c = ' ' || c = '\t'

/-- Does the redirect pattern match starting exactly at the head of `s`? -/
def redirectFrom (s : List Char) : Bool :=
  match stripPre (chars "#REDIRECT") s with
  | some (c :: rest) =>
    spaceTab c &&
      (match scanPair '[' '[' rest with
       | some r1 => (scanPair ']' ']' r1).isSome
       | none => false)
  | _ => false

/-- `redirectRegex.Find(b) != nil`: the redirect pattern matches somewhere in `b`. -/
def redirectMatch : List Char → Bool
  | [] => false
  | c :: rest => redirectFrom (c :: rest) || redirectMatch rest

/-! ### The link matcher

Source: `var linkRegex = regexp.MustCompile("\\[\\[([^|]+?)\\]\\]")` used with
`FindAllStringSubmatch(text, -1)`: repeatedly find the leftmost match, record
the capture group, and continue after the end of the match.  The lazy
`([^|]+?)` captures the shortest nonempty pipe-free run followed by `]]`. -/

def capTo (bad : Char → Bool) : List Char → List Char → Option (List Char × List Char)
  | [], _ => none
  | c :: rest, acc =>
    if bad c then none
    else
      match rest with
      | ']' :: ']' :: r2 => some (acc ++ [c], r2)
      | _ => capTo bad rest (acc ++ [c])

theorem capTo_length {bad : Char → Bool} {s acc cap r : List Char}
    (h : capTo bad s acc = some (cap, r)) : r.length < s.length := by
  induction s generalizing acc with
  | nil => simp [capTo] at h
  | cons c rest ih =>
    simp only [capTo] at h
    by_cases hb : bad c
    · simp [hb] at h
    · simp only [hb, Bool.false_eq_true, if_false] at h
      split at h
      · next r2 =>
        simp only [Option.some.injEq, Prod.mk.injEq] at h
        simp [← h.2]
        omega
      · have := ih h
        simp only [List.length_cons]
        omega

/-- One link-pattern match attempt at the current position. Returns the capture
and the text after the whole match. -/
def linkAt (s : List Char) : Option (List Char × List Char) :=
  match stripPre (chars "[[") s with
  | some rest => capTo (fun c => c = '|') rest []
  | none => none

theorem linkAt_length {s cap r : List Char} (h : linkAt s = some (cap, r)) :
    r.length < s.length := by
  unfold linkAt at h
  split at h
  · next rest hrest =>
    have h1 := capTo_length h
    have h2 := stripPre_eq_some.mp hrest
    subst h2
    simp only [List.length_append]
    omega
  · simp at h

/-- The `FindAll` loop for the link pattern, with explicit fuel: try a match
at the current position; on success continue right after the match, otherwise
advance one character.  Each step strictly shrinks the text, so a fuel of
`s.length` never runs out. -/
def linkLoop : Nat → List Char → List (List Char)
  | _, [] => []
  | 0, _ => []
  | fuel + 1, c :: rest =>
    match linkAt (c :: rest) with
    | some (cap, r) => cap :: linkLoop fuel r
    | none => linkLoop fuel rest

/-- All captures of `linkRegex.FindAllStringSubmatch(s, -1)`, in order. -/
def linkTargets (s : List Char) : List (List Char) := linkLoop s.length s

/-! ### The category matcher

Source: `var categoryRegex = regexp.MustCompile("\\[\\[Category:(.+?)\\]\\]")`,
used with `FindAllStringSubmatch`; the lazy `(.+?)` captures the shortest
nonempty newline-free run followed by `]]`. -/

def catAt (s : List Char) : Option (List Char × List Char) :=
  match stripPre (chars "[[Category:") s with
  | some rest => capTo (fun c => c = '\n') rest []
  | none => none

theorem catAt_length {s cap r : List Char} (h : catAt s = some (cap, r)) :
    r.length < s.length := by
  unfold catAt at h
  split at h
  · next rest hrest =>
    have h1 := capTo_length h
    have h2 := stripPre_eq_some.mp hrest
    subst h2
    simp only [List.length_append]
    omega
  · simp at h

/-- The `FindAll` loop for the category pattern, with explicit fuel. -/
def catLoop : Nat → List Char → List (List Char)
  | _, [] => []
  | 0, _ => []
  | fuel + 1, c :: rest =>
    match catAt (c :: rest) with
    | some (cap, r) => cap :: catLoop fuel r
    | none => catLoop fuel rest

/-- All captures of `categoryRegex.FindAllStringSubmatch(s, -1)`, in order. -/
def catTargets (s : List Char) : List (List Char) := catLoop s.length s

/-! ### Trimming

Source: `strings.Trim(rawCat[1], " \t|")` removes leading and trailing
characters of the cutset `" \t|"`. -/

def isTrimChar (c : Char) : Bool := c = ' ' || c = '\t' || c = '|'

def dropLeading (p : Char → Bool) : List Char → List Char
  | [] => []
  | c :: rest => if p c then dropLeading p rest else c :: rest

def dropTrailing (p : Char → Bool) (s : List Char) : List Char :=
  (dropLeading p s.reverse).reverse

/-- `strings.Trim(s, " \t|")`. -/
def trimCat (s : List Char) : List Char := dropLeading isTrimChar (dropTrailing isTrimChar s)

/-! ### Block Assembler (`GetRawPages`)

Source: `pageStartRegex = ".*<page>.*"` and `pageEndRegex = ".*</page>.*"`,
matched unanchored against a whole line, are the substring tests below.
The loop state is the `inPage` flag together with the accumulating buffer
(seeded with the synthetic `<page>` bytes). -/

def pageStartB (l : List Char) : Bool := containsStr (chars "<page>") l

def pageEndB (l : List Char) : Bool := containsStr (chars "</page>") l

def pageSeed : List Char := chars "<page>"

/-- One iteration of the `GetRawPages` loop body on a received line:
new state, plus the block emitted by this iteration (if any). -/
def rawStep (st : Bool × List Char) (l : List Char) : (Bool × List Char) × Option (List Char) :=
  if pageStartB l then ((true, st.2), none)
  else if pageEndB l then
    if st.1 then ((false, pageSeed), some (st.2 ++ chars "</page>"))
    else ((false, st.2), none)
  else if st.1 then ((true, st.2 ++ l), none)
  else (st, none)

/-- The blocks `GetRawPages` sends while consuming `ls` from state `st`. -/
def rawRun : List (List Char) → Bool × List Char → List (List Char)
  | [], _ => []
  | l :: ls, st =>
    match rawStep st l with
    | (st', some b) => b :: rawRun ls st'
    | (st', none) => rawRun ls st'

/-- The state of the `GetRawPages` loop after consuming `ls` from state `st`. -/
def rawState (ls : List (List Char)) (st : Bool × List Char) : Bool × List Char :=
  ls.foldl (fun st l => (rawStep st l).1) st

/-- `GetRawPages`: all blocks emitted for a complete input line sequence. -/
def getRawPages (lines : List (List Char)) : List (List Char) :=
  rawRun lines (false, pageSeed)

/-! ### Redirect Filter (`FilterRedirects`) -/

/-- `FilterRedirects`: pass through exactly the blocks where
`redirectRegex.Find(rawPage) == nil`. -/
def filterRedirects (blocks : List (List Char)) : List (List Char) :=
  blocks.filter (fun b => !redirectMatch b)

/-! ### The Page record and the Block Decoder (`GetPages`)

The `Page` struct itself is declared in a file of the `parse` package that is
not part of the sources at hand; its shape (Title, Revision.Text, Links,
Categories) is taken from the specification's data model. -/

/-- Modelled from the spec: the revision part of a Page record, holding the
body text (`Revision.Text`); the Go struct declaration is not in `src/`. -/
structure Revision where
  Text : List Char
deriving DecidableEq, Repr

/-- Modelled from the spec: the decoded page record with Title,
Revision.Text, Links and Categories; the Go struct declaration (with its XML
field tags) is not in `src/`. -/
structure Page where
  Title : List Char
  Revision : Revision
  Links : List (List Char)
  Categories : List (List Char)
deriving DecidableEq, Repr

/-- `findSub pat s`: the text right after the first occurrence of `pat`
in `s`, if `pat` occurs at all. -/
def findSub (pat : List Char) : List Char → Option (List Char)
  | [] => stripPre pat []
  | c :: rest =>
    match stripPre pat (c :: rest) with
    | some r => some r
    | none => findSub pat rest

/-- `upTo pat s`: splits `s` at the first occurrence of `pat`, returning the
text before it and the text after it. -/
def upTo (pat : List Char) : List Char → Option (List Char × List Char)
  | [] => (stripPre pat []).map (fun r => ([], r))
  | c :: rest =>
    match stripPre pat (c :: rest) with
    | some r => some ([], r)
    | none => (upTo pat rest).map (fun p => (c :: p.1, p.2))

/-- The content of the first `<tag>…</tag>` element found in `s`. -/
def tagContent (openT closeT : List Char) (s : List Char) : Option (List Char) :=
  match findSub openT s with
  | some r => (upTo closeT r).map (fun p => p.1)
  | none => none

/-- Modelled from the spec: `xml.Unmarshal` of one page block into a `Page`
(`encoding/xml` and the `Page` struct tags are not in `src/`).  Per §4.4 the
decoder recovers the title field and the revision/text field from the
tag-based serialization and fails (no record) on a block where this
structure is missing. -/
def decodePage (b : List Char) : Option Page :=
  match tagContent (chars "<title>") (chars "</title>") b,
        tagContent (chars "<text>") (chars "</text>") b with
  | some t, some x => some ⟨t, ⟨x⟩, [], []⟩
  | _, _ => none

/-- `GetPages`: decode each block, silently dropping the failures. -/
def getPages (blocks : List (List Char)) : List Page :=
  blocks.filterMap decodePage

/-! ### Link/Category Extractor (`GetLinks`, `GetCategories`) -/

/-- `GetLinks` body for one page: append every capture of `linkRegex` over
`Revision.Text` to the existing `Links`. -/
def getLinksPage (p : Page) : Page :=
  { p with Links := p.Links ++ linkTargets p.Revision.Text }

def getLinks (ps : List Page) : List Page := ps.map getLinksPage

/-- `GetCategories` body for one page: replace `Categories` with the trimmed
captures of `categoryRegex` over `Revision.Text`. -/
def getCategoriesPage (p : Page) : Page :=
  { p with Categories := (catTargets p.Revision.Text).map trimCat }

def getCategories (ps : List Page) : List Page := ps.map getCategoriesPage

/-! ### The pipelines (`Parse`, `CategorizedParse`)

`Parse` chains GetChunks → GetRawPages → FilterRedirects → GetPages →
GetLinks over unbuffered channels; each stage consumes its whole input and
closes its output, so the caller-visible stream is the composition below
applied to the line sequence. `CategorizedParse` feeds `Parse`'s output
through `GetCategories`. -/

def parsePipeline (lines : List (List Char)) : List Page :=
  getLinks (getPages (filterRedirects (getRawPages lines)))

def categorizedPipeline (lines : List (List Char)) : List Page :=
  getCategories (parsePipeline lines)

/-! ### Line Source (`GetChunks`)

`GetChunks` drives a `bufio.Scanner`.  A scanner read either yields a line or
hits a read error; per the `bufio` contract an error is sticky: once `Scan`
has returned `false` because of an error, every later `Scan` returns `false`
and `Err()` keeps returning that error.  The scanner state below carries the
pending read events and the sticky error flag. -/

inductive ReadEvent where
  | line (l : List Char)
  | fail
deriving DecidableEq, Repr

structure ScanSt where
  events : List ReadEvent
  errFlag : Bool
deriving DecidableEq, Repr

/-- The `GetChunks` loop, stepped with explicit fuel: `some lines` means the
loop reached `eof = true` within `fuel` iterations, emitted `lines` in order
and closed its channel; `none` means it was still running after `fuel`
iterations. -/
def getChunksFuel : Nat → ScanSt → Option (List (List Char))
  | 0, _ => none
  | fuel + 1, st =>
    if st.errFlag then
      getChunksFuel fuel st
    else
      match st.events with
      | [] => some []
      | ReadEvent.line l :: rest => (getChunksFuel fuel ⟨rest, false⟩).map (fun ls => l :: ls)
      | ReadEvent.fail :: rest => getChunksFuel fuel ⟨rest, true⟩

/-! ### Lemmas about the Block Assembler loop -/

theorem rawRun_append (xs ys : List (List Char)) (st : Bool × List Char) :
    rawRun (xs ++ ys) st = rawRun xs st ++ rawRun ys (rawState xs st) := by
  induction xs generalizing st with
  | nil => simp [rawRun, rawState]
  | cons l ls ih =>
    simp only [List.cons_append, rawRun, rawState, List.foldl_cons]
    cases h : rawStep st l with
    | mk st' out =>
      cases out with
      | some b => simp [h, ih, rawState]
      | none => simp [h, ih, rawState]

theorem rawRun_of_no_end {ts : List (List Char)} (st : Bool × List Char)
    (h : ∀ l ∈ ts, pageEndB l = false) : rawRun ts st = [] := by
  induction ts generalizing st with
  | nil => rfl
  | cons l ls ih =>
    have hl : pageEndB l = false := h l (by simp)
    have hrest : ∀ l' ∈ ls, pageEndB l' = false := fun l' hm => h l' (by simp [hm])
    simp only [rawRun, rawStep, hl]
    by_cases hs : pageStartB l
    · simp [hs, ih _ hrest]
    · simp only [hs, Bool.false_eq_true, if_false]
      by_cases hin : st.1 <;> simp [hin, ih _ hrest]

/-! ### Soundness of the capture scanners -/

theorem capTo_sound {bad : Char → Bool} {s acc cap r : List Char}
    (h : capTo bad s acc = some (cap, r)) :
    ∃ core, cap = acc ++ core ∧ core ≠ [] ∧ (∀ c ∈ core, bad c = false) ∧
      s = core ++ [']', ']'] ++ r := by
  induction s generalizing acc with
  | nil => simp [capTo] at h
  | cons c rest ih =>
    simp only [capTo] at h
    by_cases hb : bad c
    · simp [hb] at h
    · simp only [hb, Bool.false_eq_true, if_false] at h
      split at h
      · next r2 =>
        simp only [Option.some.injEq, Prod.mk.injEq] at h
        refine ⟨[c], by simp [← h.1], by simp, by simp [hb], ?_⟩
        simp [← h.2]
      · obtain ⟨core, hcap, hne, hbad, hs⟩ := ih h
        refine ⟨c :: core, by simp [hcap], by simp, ?_, by simp [hs]⟩
        intro x hx
        rcases List.mem_cons.mp hx with hx | hx
        · simpa [hx] using hb
        · exact hbad x hx

theorem linkAt_sound {s cap r : List Char} (h : linkAt s = some (cap, r)) :
    s = chars "[[" ++ cap ++ chars "]]" ++ r ∧ cap ≠ [] ∧ ∀ c ∈ cap, c ≠ '|' := by
  unfold linkAt at h
  split at h
  · next rest hrest =>
    obtain ⟨core, hcap, hne, hbad, hs⟩ := capTo_sound h
    have hr := stripPre_eq_some.mp hrest
    subst hr
    simp only [List.nil_append] at hcap
    subst hcap
    refine ⟨by simp [hs, chars], hne, ?_⟩
    intro c hc
    have := hbad c hc
    simpa using this
  · simp at h

theorem linkLoop_sound {fuel : Nat} {s cap : List Char} (h : cap ∈ linkLoop fuel s) :
    ∃ u v, s = u ++ chars "[[" ++ cap ++ chars "]]" ++ v ∧ cap ≠ [] ∧
      ∀ c ∈ cap, c ≠ '|' := by
  induction fuel generalizing s with
  | zero =>
    cases s <;> simp [linkLoop] at h
  | succ n ih =>
    cases s with
    | nil => simp [linkLoop] at h
    | cons c rest =>
      rw [linkLoop] at h
      cases hat : linkAt (c :: rest) with
      | some pr =>
        obtain ⟨cap', r⟩ := pr
        rw [hat] at h
        rcases List.mem_cons.mp h with hc | hc
        · subst hc
          obtain ⟨hs, hne, hnp⟩ := linkAt_sound hat
          exact ⟨[], r, by simpa using hs, hne, hnp⟩
        · obtain ⟨u, v, hs, hne, hnp⟩ := ih hc
          obtain ⟨hs', hne', hnp'⟩ := linkAt_sound hat
          refine ⟨chars "[[" ++ cap' ++ chars "]]" ++ u, v, ?_, hne, hnp⟩
          rw [hs'] at *
          simp [hs]
      | none =>
        rw [hat] at h
        obtain ⟨u, v, hs, hne, hnp⟩ := ih h
        exact ⟨c :: u, v, by simp [hs], hne, hnp⟩

theorem linkTargets_sound {s cap : List Char} (h : cap ∈ linkTargets s) :
    ∃ u v, s = u ++ chars "[[" ++ cap ++ chars "]]" ++ v ∧ cap ≠ [] ∧
      ∀ c ∈ cap, c ≠ '|' :=
  linkLoop_sound h

theorem catAt_sound {s cap r : List Char} (h : catAt s = some (cap, r)) :
    s = chars "[[Category:" ++ cap ++ chars "]]" ++ r ∧ cap ≠ [] ∧
      ∀ c ∈ cap, c ≠ '\n' := by
  unfold catAt at h
  split at h
  · next rest hrest =>
    obtain ⟨core, hcap, hne, hbad, hs⟩ := capTo_sound h
    have hr := stripPre_eq_some.mp hrest
    subst hr
    simp only [List.nil_append] at hcap
    subst hcap
    refine ⟨by simp [hs, chars], hne, ?_⟩
    intro c hc
    have := hbad c hc
    simpa using this
  · simp at h

theorem catLoop_sound {fuel : Nat} {s cap : List Char} (h : cap ∈ catLoop fuel s) :
    ∃ u v, s = u ++ chars "[[Category:" ++ cap ++ chars "]]" ++ v ∧ cap ≠ [] ∧
      ∀ c ∈ cap, c ≠ '\n' := by
  induction fuel generalizing s with
  | zero =>
    cases s <;> simp [catLoop] at h
  | succ n ih =>
    cases s with
    | nil => simp [catLoop] at h
    | cons c rest =>
      rw [catLoop] at h
      cases hat : catAt (c :: rest) with
      | some pr =>
        obtain ⟨cap', r⟩ := pr
        rw [hat] at h
        rcases List.mem_cons.mp h with hc | hc
        · subst hc
          obtain ⟨hs, hne, hnp⟩ := catAt_sound hat
          exact ⟨[], r, by simpa using hs, hne, hnp⟩
        · obtain ⟨u, v, hs, hne, hnp⟩ := ih hc
          obtain ⟨hs', hne', hnp'⟩ := catAt_sound hat
          refine ⟨chars "[[Category:" ++ cap' ++ chars "]]" ++ u, v, ?_, hne, hnp⟩
          rw [hs'] at *
          simp [hs]
      | none =>
        rw [hat] at h
        obtain ⟨u, v, hs, hne, hnp⟩ := ih h
        exact ⟨c :: u, v, by simp [hs], hne, hnp⟩

theorem catTargets_sound {s cap : List Char} (h : cap ∈ catTargets s) :
    ∃ u v, s = u ++ chars "[[Category:" ++ cap ++ chars "]]" ++ v ∧ cap ≠ [] ∧
      ∀ c ∈ cap, c ≠ '\n' :=
  catLoop_sound h

/-! ### Characterization of the redirect matcher -/

theorem scanPair_sound {a b : Char} {s r : List Char} (h : scanPair a b s = some r) :
    ∃ v, s = v ++ [a, b] ++ r ∧ '\n' ∉ v := by
  induction s using scanPair.induct a b with
  | case1 => simp [scanPair] at h
  | case2 => simp [scanPair] at h
  | case3 x y rest h1 =>
    obtain ⟨hx, hy⟩ := h1
    subst hx; subst hy
    simp only [scanPair, and_self, if_true, Option.some.injEq] at h
    exact ⟨[], by simp [h], by simp⟩
  | case4 y rest h1 =>
    simp [scanPair, h1] at h
  | case5 x y rest h1 h2 ih =>
    rw [scanPair, if_neg h1, if_neg h2] at h
    obtain ⟨v, hv, hnl⟩ := ih h
    refine ⟨x :: v, by simp [hv], ?_⟩
    intro hc
    rcases List.mem_cons.mp hc with hc | hc
    · exact h2 hc.symm
    · exact hnl hc

theorem scanPair_complete {a b : Char} (ha : a ≠ '\n') (hb : b ≠ '\n')
    {v r : List Char} (hv : '\n' ∉ v) :
    ∃ m r1, scanPair a b (v ++ [a, b] ++ r) = some r1 ∧ r1 = m ++ r ∧ '\n' ∉ m := by
  induction v with
  | nil => exact ⟨[], r, by simp [scanPair], rfl, by simp⟩
  | cons x v' ih =>
    have hx : x ≠ '\n' := fun hc => hv (by simp [hc])
    have hv' : '\n' ∉ v' := fun hc => hv (by simp [hc])
    cases v' with
    | nil =>
      by_cases h1 : x = a ∧ a = b
      · refine ⟨[b], b :: r, ?_, rfl, by simp [Ne.symm hb]⟩
        simp [scanPair, h1.1, h1.2]
      · refine ⟨[], r, ?_, by simp, by simp⟩
        simp [scanPair, h1, hx]
    | cons z v'' =>
      by_cases h1 : x = a ∧ z = b
      · refine ⟨v'' ++ [a, b], v'' ++ [a, b] ++ r, ?_, by simp, ?_⟩
        · simp [scanPair, h1.1, h1.2]
        · intro hc
          rcases List.mem_append.mp hc with hc | hc
          · exact hv' (by simp [hc])
          · rcases List.mem_cons.mp hc with hc | hc
            · exact ha hc.symm
            · simp at hc
              exact hb hc.symm
      · obtain ⟨m, r1, hscan, hr1, hm⟩ := ih hv'
        refine ⟨m, r1, ?_, hr1, hm⟩
        simp only [List.cons_append, List.append_assoc, List.nil_append] at hscan ⊢
        rw [scanPair, if_neg h1, if_neg hx]
        exact hscan

theorem redirectFrom_iff {s : List Char} :
    redirectFrom s = true ↔
      ∃ c v w x, (c = ' ' ∨ c = '\t') ∧ '\n' ∉ v ∧ '\n' ∉ w ∧
        s = chars "#REDIRECT" ++ c :: (v ++ chars "[[" ++ w ++ chars "]]" ++ x) := by
  constructor
  · intro h
    unfold redirectFrom at h
    split at h
    · next c rest hstrip =>
      have hs := stripPre_eq_some.mp hstrip
      simp only [Bool.and_eq_true] at h
      obtain ⟨hsp, hrest⟩ := h
      split at hrest
      · next r1 hscan1 =>
        obtain ⟨r2, hscan2⟩ := Option.isSome_iff_exists.mp hrest
        obtain ⟨v, hv, hvnl⟩ := scanPair_sound hscan1
        obtain ⟨w, hw, hwnl⟩ := scanPair_sound hscan2
        refine ⟨c, v, w, r2, ?_, hvnl, hwnl, ?_⟩
        · simpa [spaceTab] using hsp
        · rw [hs, hv, hw]
          simp [chars]
      · exact absurd hrest (by simp)
    · exact absurd h (by simp)
  · rintro ⟨c, v, w, x, hc, hvnl, hwnl, hs⟩
    subst hs
    have hsp : spaceTab c = true := by
      rcases hc with hc | hc <;> simp [spaceTab, hc]
    have hbr : ('[' : Char) ≠ '\n' := by decide
    have hbr2 : (']' : Char) ≠ '\n' := by decide
    obtain ⟨m, r1, hscan1, hr1, hmnl⟩ :=
      scanPair_complete (a := '[') (b := '[') hbr hbr (r := w ++ chars "]]" ++ x) hvnl
    have hmw : '\n' ∉ m ++ w := by
      intro hcm
      rcases List.mem_append.mp hcm with hcm | hcm
      · exact hmnl hcm
      · exact hwnl hcm
    obtain ⟨m2, r2, hscan2, hr2, hm2nl⟩ :=
      scanPair_complete (a := ']') (b := ']') hbr2 hbr2 (r := x) hmw
    simp only [redirectFrom, stripPre_self_append, hsp, Bool.true_and]
    have hg1 : v ++ chars "[[" ++ w ++ chars "]]" ++ x = v ++ ['[', '['] ++ (w ++ chars "]]" ++ x) := by
      simp [chars]
    rw [hg1, hscan1]
    show (scanPair ']' ']' r1).isSome = true
    have hg2 : r1 = (m ++ w) ++ [']', ']'] ++ x := by
      rw [hr1]
      simp [chars]
    rw [hg2, hscan2]
    rfl

theorem redirectMatch_iff_from {s : List Char} :
    redirectMatch s = true ↔ ∃ u t, s = u ++ t ∧ redirectFrom t = true := by
  induction s with
  | nil =>
    simp only [redirectMatch]
    constructor
    · intro h
      exact absurd h (by simp)
    · rintro ⟨u, t, hs, hf⟩
      have hu : u = [] ∧ t = [] := by
        constructor
        · cases u with
          | nil => rfl
          | cons a as => simp at hs
        · cases u with
          | nil => simpa using hs.symm
          | cons a as => simp at hs
      rw [hu.2] at hf
      simpa [redirectFrom, stripPre] using hf
  | cons c rest ih =>
    simp only [redirectMatch, Bool.or_eq_true, ih]
    constructor
    · rintro (h | ⟨u, t, hs, hf⟩)
      · exact ⟨[], c :: rest, by simp, h⟩
      · exact ⟨c :: u, t, by simp [hs], hf⟩
    · rintro ⟨u, t, hs, hf⟩
      cases u with
      | nil =>
        left
        have ht : t = c :: rest := by simpa using hs.symm
        rwa [ht] at hf
      | cons a as =>
        right
        simp only [List.cons_append, List.cons.injEq] at hs
        exact ⟨as, t, hs.2, hf⟩

/-- The redirect-directive predicate as the specification words it, with the
separator and same-line requirements that `redirectRegex` actually imposes:
`#REDIRECT`, then one space or tab, then (without crossing a newline) a
bracketed target `[[…]]`. -/
def RedirectAmended (b : List Char) : Prop :=
  ∃ u c v w x, (c = ' ' ∨ c = '\t') ∧ '\n' ∉ v ∧ '\n' ∉ w ∧
    b = u ++ chars "#REDIRECT" ++ c :: (v ++ chars "[[" ++ w ++ chars "]]" ++ x)

/-- The redirect-directive predicate exactly as the claim words it:
`#REDIRECT` followed (anywhere later) by a bracketed target. -/
def RedirectClaimed (b : List Char) : Prop :=
  ∃ u v w x, b = u ++ chars "#REDIRECT" ++ v ++ chars "[[" ++ w ++ chars "]]" ++ x

theorem redirectMatch_iff_amended {b : List Char} :
    redirectMatch b = true ↔ RedirectAmended b := by
  rw [redirectMatch_iff_from]
  constructor
  · rintro ⟨u, t, hb, hf⟩
    obtain ⟨c, v, w, x, hc, hvnl, hwnl, ht⟩ := redirectFrom_iff.mp hf
    exact ⟨u, c, v, w, x, hc, hvnl, hwnl, by simp [hb, ht]⟩
  · rintro ⟨u, c, v, w, x, hc, hvnl, hwnl, hb⟩
    refine ⟨u, chars "#REDIRECT" ++ c :: (v ++ chars "[[" ++ w ++ chars "]]" ++ x), by simp [hb], ?_⟩
    exact redirectFrom_iff.mpr ⟨c, v, w, x, hc, hvnl, hwnl, rfl⟩

/-! ### First-occurrence lemmas for the decoder scanners -/

theorem stripPre_isSome_of_append_eq {p s r x : List Char} (h : s ++ r = p ++ x)
    (hl : p.length ≤ s.length) : ∃ z, stripPre p s = some z := by
  refine ⟨s.drop p.length, stripPre_eq_some.mpr ?_⟩
  have h1 : (s ++ r).take p.length = (p ++ x).take p.length := by rw [h]
  have h2 : (s ++ r).take p.length = s.take p.length := by
    rw [List.take_append_eq_append_take]
    have hz : p.length - s.length = 0 := by omega
    simp [hz]
  have h3 : (p ++ x).take p.length = p := List.take_left p x
  have h4 : s.take p.length = p := by rw [← h2, h1, h3]
  conv_lhs => rw [← List.take_append_drop p.length s]
  rw [h4]

theorem stripPre_none_extend {pat s : List Char} (r : List Char)
    (h : stripPre pat s = none) (hl : pat.length ≤ s.length) :
    stripPre pat (s ++ r) = none := by
  cases hsp : stripPre pat (s ++ r) with
  | none => rfl
  | some z =>
    obtain ⟨z', hz'⟩ := stripPre_isSome_of_append_eq (stripPre_eq_some.mp hsp) hl
    rw [hz'] at h
    exact absurd h (by simp)

theorem findSub_append_of_firstAtEnd {pat pre : List Char}
    (h : findSub pat (pre ++ pat) = some []) (r : List Char) :
    findSub pat (pre ++ pat ++ r) = some r := by
  induction pre with
  | nil =>
    simp only [List.nil_append] at h ⊢
    cases hpr : pat ++ r with
    | nil =>
      obtain ⟨hp, hr⟩ := List.append_eq_nil.mp hpr
      subst hp; subst hr
      simp [findSub, stripPre]
    | cons c rest =>
      have hstrip : stripPre pat (c :: rest) = some r := by
        rw [← hpr]
        exact stripPre_self_append pat r
      rw [findSub, hstrip]
  | cons c pre' ih =>
    simp only [List.cons_append] at h ⊢
    cases hsp : stripPre pat (c :: (pre' ++ pat)) with
    | some z' =>
      rw [findSub, hsp] at h
      simp only [Option.some.injEq] at h
      subst h
      have hz := stripPre_eq_some.mp hsp
      have hlen : (c :: (pre' ++ pat)).length = pat.length := by rw [hz]; simp
      simp only [List.length_cons, List.length_append] at hlen
      omega
    | none =>
      rw [findSub, hsp] at h
      have hl : pat.length ≤ (c :: (pre' ++ pat)).length := by
        simp only [List.length_cons, List.length_append]
        omega
      have hsp2 : stripPre pat (c :: (pre' ++ pat ++ r)) = none :=
        stripPre_none_extend r hsp hl
      rw [findSub, hsp2]
      exact ih h

theorem upTo_append_of_firstAtEnd {pat t : List Char}
    (h : upTo pat (t ++ pat) = some (t, [])) (r : List Char) :
    upTo pat (t ++ pat ++ r) = some (t, r) := by
  induction t with
  | nil =>
    simp only [List.nil_append] at h ⊢
    cases hpr : pat ++ r with
    | nil =>
      obtain ⟨hp, hr⟩ := List.append_eq_nil.mp hpr
      subst hp; subst hr
      simp [upTo, stripPre]
    | cons c rest =>
      have hstrip : stripPre pat (c :: rest) = some r := by
        rw [← hpr]
        exact stripPre_self_append pat r
      rw [upTo, hstrip]
  | cons c t' ih =>
    simp only [List.cons_append] at h ⊢
    cases hsp : stripPre pat (c :: (t' ++ pat)) with
    | some z' =>
      rw [upTo, hsp] at h
      simp at h
    | none =>
      rw [upTo, hsp] at h
      rw [Option.map_eq_some'] at h
      obtain ⟨p, hu, hf⟩ := h
      obtain ⟨p1, p2⟩ := p
      simp only [Prod.mk.injEq, List.cons.injEq] at hf
      obtain ⟨⟨-, hp1⟩, hp2⟩ := hf
      rw [hp1, hp2] at hu
      have hl : pat.length ≤ (c :: (t' ++ pat)).length := by
        simp only [List.length_cons, List.length_append]
        omega
      have hsp2 : stripPre pat (c :: (t' ++ pat ++ r)) = none :=
        stripPre_none_extend r hsp hl
      rw [upTo, hsp2]
      show (upTo pat (t' ++ pat ++ r)).map (fun p => (c :: p.1, p.2)) = some (c :: t', r)
      rw [ih hu]
      rfl

/-! ### Lemmas about trimming -/

theorem dropLeading_cons_head {p : Char → Bool} {s : List Char} {c : Char} {t : List Char}
    (h : dropLeading p s = c :: t) : p c = false := by
  induction s with
  | nil => simp [dropLeading] at h
  | cons a rest ih =>
    by_cases hp : p a
    · rw [dropLeading, if_pos hp] at h
      exact ih h
    · rw [dropLeading, if_neg hp] at h
      injection h with h1 h2
      rw [← h1]
      simpa using hp

theorem dropLeading_suffix (p : Char → Bool) (s : List Char) :
    ∃ w, s = w ++ dropLeading p s := by
  induction s with
  | nil => exact ⟨[], rfl⟩
  | cons a rest ih =>
    by_cases hp : p a
    · obtain ⟨w, hw⟩ := ih
      refine ⟨a :: w, ?_⟩
      rw [dropLeading, if_pos hp, List.cons_append, ← hw]
    · exact ⟨[], by rw [dropLeading, if_neg hp, List.nil_append]⟩

theorem dropLeading_idem (p : Char → Bool) (s : List Char) :
    dropLeading p (dropLeading p s) = dropLeading p s := by
  induction s with
  | nil => rfl
  | cons a rest ih =>
    by_cases hp : p a
    · rw [dropLeading, if_pos hp]
      exact ih
    · rw [dropLeading, if_neg hp, dropLeading, if_neg hp]

/-- A trimmed category has no leading cutset character left. -/
theorem trimCat_front (s : List Char) :
    dropLeading isTrimChar (trimCat s) = trimCat s :=
  dropLeading_idem _ _

/-- A trimmed category has no trailing cutset character left. -/
theorem trimCat_back (s : List Char) :
    dropTrailing isTrimChar (trimCat s) = trimCat s := by
  obtain ⟨w, hw⟩ := dropLeading_suffix isTrimChar (dropTrailing isTrimChar s)
  cases hrz : (trimCat s).reverse with
  | nil =>
    have hz : trimCat s = [] := by
      have := congrArg List.reverse hrz
      simpa using this
    rw [hz]
    rfl
  | cons b zr =>
    have hyrev : (dropTrailing isTrimChar s).reverse = b :: (zr ++ w.reverse) := by
      conv_lhs => rw [hw]
      rw [List.reverse_append]
      rw [show (dropLeading isTrimChar (dropTrailing isTrimChar s)).reverse = b :: zr from hrz]
      simp
    have hble : isTrimChar b = false := by
      have hyrev2 : dropLeading isTrimChar s.reverse = b :: (zr ++ w.reverse) := by
        rw [← hyrev]
        unfold dropTrailing
        rw [List.reverse_reverse]
      exact dropLeading_cons_head hyrev2
    unfold dropTrailing
    rw [hrz, dropLeading, if_neg (by simp [hble]), ← hrz, List.reverse_reverse]

/-- `strings.Trim` with the same cutset is idempotent. -/
theorem trimCat_stable (s : List Char) : trimCat (trimCat s) = trimCat s := by
  show dropLeading isTrimChar (dropTrailing isTrimChar (trimCat s)) = trimCat s
  rw [trimCat_back, trimCat_front]

/-! ### Building well-formed dumps for end-to-end runs -/

/-- The raw material for one well-formed page of a dump: a title and a body
text, serialized by `pageLines` below. -/
structure PageSrc where
  title : List Char
  body : List Char
deriving DecidableEq, Repr

def titleLine (p : PageSrc) : List Char := chars "<title>" ++ p.title ++ chars "</title>"

def revLine (p : PageSrc) : List Char :=
  chars "<revision>" ++ chars "<text>" ++ p.body ++ chars "</text>" ++ chars "</revision>"

/-- The lines of one page record of a dump. -/
def pageLines (p : PageSrc) : List (List Char) :=
  [chars "<page>", titleLine p, revLine p, chars "</page>"]

/-- The block `GetRawPages` assembles for one page: the synthetic open tag,
the interior lines concatenated, the synthetic close tag. -/
def mkBlock (p : PageSrc) : List Char :=
  pageSeed ++ (titleLine p ++ (revLine p ++ chars "</page>"))

def mkDump : List PageSrc → List (List Char)
  | [] => []
  | p :: ps => pageLines p ++ mkDump ps

/-- The `Page` that decoding `mkBlock p` should produce. -/
def basePage (p : PageSrc) : Page := ⟨p.title, ⟨p.body⟩, [], []⟩

/-- Well-formedness of one source page, phrased on the scanners: its interior
lines contain no page markers, the title and body contain no premature close
tag, and nothing before the real `<text>` tag contains a stray `<text>`. -/
def wellFormedSrc (p : PageSrc) : Prop :=
  pageStartB (titleLine p) = false ∧ pageEndB (titleLine p) = false ∧
  pageStartB (revLine p) = false ∧ pageEndB (revLine p) = false ∧
  upTo (chars "</title>") (p.title ++ chars "</title>") = some (p.title, []) ∧
  upTo (chars "</text>") (p.body ++ chars "</text>") = some (p.body, []) ∧
  findSub (chars "<text>")
    ((chars "<page>" ++ titleLine p ++ chars "<revision>") ++ chars "<text>") = some []

instance (p : PageSrc) : Decidable (wellFormedSrc p) := by
  unfold wellFormedSrc
  infer_instance

/-- The enriched page the plain pipeline should emit for one source page. -/
def enrichPlain (p : PageSrc) : Page := ⟨p.title, ⟨p.body⟩, linkTargets p.body, []⟩

/-- The enriched page the categorized pipeline should emit for one source page. -/
def enrichCat (p : PageSrc) : Page :=
  ⟨p.title, ⟨p.body⟩, linkTargets p.body, (catTargets p.body).map trimCat⟩

theorem findSub_title (X : List Char) :
    findSub (chars "<title>") (chars "<page>" ++ (chars "<title>" ++ X)) = some X := by
  simp [findSub, stripPre, chars]

theorem decode_mkBlock {p : PageSrc} (h : wellFormedSrc p) :
    decodePage (mkBlock p) = some (basePage p) := by
  obtain ⟨-, -, -, -, h5, h6, h7⟩ := h
  have hblk : mkBlock p =
      chars "<page>" ++ (chars "<title>" ++ (p.title ++ (chars "</title>" ++
        (chars "<revision>" ++ (chars "<text>" ++ (p.body ++ (chars "</text>" ++
          (chars "</revision>" ++ chars "</page>")))))))) := by
    simp [mkBlock, titleLine, revLine, pageSeed]
  have htit : tagContent (chars "<title>") (chars "</title>") (mkBlock p) = some p.title := by
    unfold tagContent
    rw [hblk]
    rw [findSub_title]
    have ht := upTo_append_of_firstAtEnd h5
      (chars "<revision>" ++ (chars "<text>" ++ (p.body ++ (chars "</text>" ++
        (chars "</revision>" ++ chars "</page>")))))
    rw [List.append_assoc] at ht
    simp [ht]
  have hfs : findSub (chars "<text>") (mkBlock p) =
      some (p.body ++ (chars "</text>" ++ (chars "</revision>" ++ chars "</page>"))) := by
    have hf := findSub_append_of_firstAtEnd h7
      (p.body ++ (chars "</text>" ++ (chars "</revision>" ++ chars "</page>")))
    have harg : (chars "<page>" ++ titleLine p ++ chars "<revision>") ++ chars "<text>" ++
        (p.body ++ (chars "</text>" ++ (chars "</revision>" ++ chars "</page>"))) = mkBlock p := by
      simp [mkBlock, titleLine, revLine, pageSeed]
    rw [harg] at hf
    exact hf
  have htxt : tagContent (chars "<text>") (chars "</text>") (mkBlock p) = some p.body := by
    unfold tagContent
    rw [hfs]
    have hx := upTo_append_of_firstAtEnd h6 (chars "</revision>" ++ chars "</page>")
    rw [List.append_assoc] at hx
    simp [hx]
  unfold decodePage
  rw [htit, htxt]
  rfl

theorem rawRun_pageLines (p : PageSrc) (h : wellFormedSrc p) :
    rawRun (pageLines p) (false, pageSeed) = [mkBlock p] ∧
    rawState (pageLines p) (false, pageSeed) = (false, pageSeed) := by
  obtain ⟨h1, h2, h3, h4, -, -, -⟩ := h
  have hs1 : pageStartB (chars "<page>") = true := by decide
  have hs4 : pageStartB (chars "</page>") = false := by decide
  have he4 : pageEndB (chars "</page>") = true := by decide
  constructor
  · simp [pageLines, rawRun, rawStep, hs1, hs4, he4, h1, h2, h3, h4, mkBlock]
  · simp [pageLines, rawState, rawStep, hs1, hs4, he4, h1, h2, h3, h4]

theorem getRawPages_mkDump (ps : List PageSrc) (h : ∀ p ∈ ps, wellFormedSrc p) :
    getRawPages (mkDump ps) = ps.map mkBlock := by
  suffices hgen : rawRun (mkDump ps) (false, pageSeed) = ps.map mkBlock by
    exact hgen
  induction ps with
  | nil => rfl
  | cons p ps ih =>
    have hp := h p (by simp)
    have hrest : ∀ q ∈ ps, wellFormedSrc q := fun q hq => h q (by simp [hq])
    rw [mkDump, rawRun_append, (rawRun_pageLines p hp).1,
      (rawRun_pageLines p hp).2, ih hrest]
    rfl

theorem filterRedirects_mkBlocks (ps : List PageSrc)
    (hr : ∀ p ∈ ps, redirectMatch (mkBlock p) = false) :
    filterRedirects (ps.map mkBlock) = ps.map mkBlock := by
  apply List.filter_eq_self.mpr
  intro b hb
  obtain ⟨p, hp, hpb⟩ := List.mem_map.mp hb
  rw [← hpb]
  simp [hr p hp]

theorem getPages_mkBlocks (ps : List PageSrc) (h : ∀ p ∈ ps, wellFormedSrc p) :
    getPages (ps.map mkBlock) = ps.map basePage := by
  induction ps with
  | nil => rfl
  | cons p ps ih =>
    have hp := h p (by simp)
    have hrest : ∀ q ∈ ps, wellFormedSrc q := fun q hq => h q (by simp [hq])
    simp only [List.map_cons, getPages, List.filterMap_cons, decode_mkBlock hp]
    rw [show (ps.map mkBlock).filterMap decodePage = getPages (ps.map mkBlock) from rfl, ih hrest]

/-! ### Lemmas about the Line Source loop -/

theorem getChunksFuel_err (fuel : Nat) (st : ScanSt) (h : st.errFlag = true) :
    getChunksFuel fuel st = none := by
  induction fuel with
  | zero => rfl
  | succ n ih => simp [getChunksFuel, h, ih]

/-! ## The claims -/

/-! ### C1: link extraction -/

/-- A page whose body is the C1 example text, as `GetLinks` receives it. -/
def exPage1 : Page := ⟨chars "T", ⟨chars "[[A]] is related to [[B]] and [[Category:C]]"⟩, [], []⟩

/-- Claim C1, counterexample: on the claim's own example body text
`[[A]] is related to [[B]] and [[Category:C]]`, `GetLinks` produces
Links = ["A", "B", "Category:C"], not the claimed ["A", "B"]: the source
appends every `linkRegex` capture and never excludes category references. -/
theorem c1_counterexample :
    (getLinksPage exPage1).Links = [chars "A", chars "B", chars "Category:C"] ∧
    (getLinksPage exPage1).Links ≠ [chars "A", chars "B"] := by decide

/-- Claim C1, amended: for every Page, `GetLinks` appends to Links the capture
texts of all non-overlapping `[[…]]` references whose bracketed text contains
no pipe character — category references included — verbatim and in order of
appearance; every emitted capture is a nonempty pipe-free bracketed occurrence
of the text, and on the example text the appended targets are
["A", "B", "Category:C"]. -/
theorem c1_amended_links (p : Page) (cap : List Char)
    (hc : cap ∈ linkTargets p.Revision.Text) :
    (getLinksPage p).Links = p.Links ++ linkTargets p.Revision.Text ∧
    (getLinksPage p).Title = p.Title ∧
    (getLinksPage p).Revision = p.Revision ∧
    (getLinksPage p).Categories = p.Categories ∧
    (∃ u v, p.Revision.Text = u ++ chars "[[" ++ cap ++ chars "]]" ++ v ∧
      cap ≠ [] ∧ ∀ c ∈ cap, c ≠ '|') ∧
    linkTargets (chars "[[A]] is related to [[B]] and [[Category:C]]") =
      [chars "A", chars "B", chars "Category:C"] :=
  ⟨rfl, rfl, rfl, rfl, linkTargets_sound hc, by decide⟩

/-- Witness for the amended C1 theorem at the example page and capture `A`. -/
theorem c1_amended_links_witness :
    (getLinksPage exPage1).Links = exPage1.Links ++ linkTargets exPage1.Revision.Text ∧
    ∃ u v, exPage1.Revision.Text = u ++ chars "[[" ++ chars "A" ++ chars "]]" ++ v ∧
      chars "A" ≠ [] ∧ ∀ c ∈ chars "A", c ≠ '|' :=
  ⟨(c1_amended_links exPage1 (chars "A") (by decide)).1,
   (c1_amended_links exPage1 (chars "A") (by decide)).2.2.2.2.1⟩

/-! ### C2: the Line Source on a transient read failure -/

/-- A scanner input that yields the line `a`, then hits a read error, and
would afterwards have had the line `b` available. -/
def errScan : ScanSt := ⟨[ReadEvent.line (chars "a"), ReadEvent.fail, ReadEvent.line (chars "b")], false⟩

/-- Claim C2 names a genuine bug: after a read failure the `bufio.Scanner`
error is sticky, so `scanner.Scan()` keeps returning false with
`scanner.Err() != nil`, the `GetChunks` loop never sets `eof`, spins logging
forever and never closes its channel — for no amount of fuel does the loop
terminate on `errScan`, whereas the same loop on the error-free input
terminates cleanly having emitted every line. -/
theorem c2_line_source_stuck :
    (∀ fuel, getChunksFuel fuel errScan = none) ∧
    getChunksFuel 3 ⟨[ReadEvent.line (chars "a"), ReadEvent.line (chars "b")], false⟩ =
      some [chars "a", chars "b"] := by
  constructor
  · intro fuel
    match fuel with
    | 0 => rfl
    | 1 => rfl
    | n + 2 =>
      have h1 : getChunksFuel n ⟨[ReadEvent.line (chars "b")], true⟩ = none :=
        getChunksFuel_err n _ rfl
      simp [getChunksFuel, errScan, h1]
  · rfl

/-! ### C3: idempotence of re-extraction -/

/-- A page already carrying no links, whose body is `[[A]]`. -/
def exPage3 : Page := ⟨chars "T", ⟨chars "[[A]]"⟩, [], []⟩

/-- Claim C3, counterexample: running `GetLinks` a second time on the
already-enriched page duplicates Links (`["A", "A"]` instead of `["A"]`),
because the source appends to the existing slice instead of replacing it. -/
theorem c3_counterexample :
    getLinksPage (getLinksPage exPage3) ≠ getLinksPage exPage3 ∧
    (getLinksPage (getLinksPage exPage3)).Links = [chars "A", chars "A"] ∧
    (getLinksPage exPage3).Links = [chars "A"] := by decide

/-- Claim C3, amended: re-running category extraction is idempotent (the
Categories slice is replaced), but re-running link extraction appends the
same capture list a second time, duplicating Links; neither extractor
touches any other field. -/
theorem c3_amended (p : Page) :
    getCategoriesPage (getCategoriesPage p) = getCategoriesPage p ∧
    (getLinksPage (getLinksPage p)).Links =
      p.Links ++ linkTargets p.Revision.Text ++ linkTargets p.Revision.Text ∧
    (getLinksPage p).Title = p.Title ∧ (getLinksPage p).Revision = p.Revision ∧
    (getLinksPage p).Categories = p.Categories ∧
    (getCategoriesPage p).Title = p.Title ∧ (getCategoriesPage p).Revision = p.Revision ∧
    (getCategoriesPage p).Links = p.Links := by
  refine ⟨?_, by simp [getLinksPage], rfl, rfl, rfl, rfl, rfl, rfl⟩
  simp [getCategoriesPage]

/-! ### C4: the Redirect Filter -/

/-- A block containing `#REDIRECT` immediately followed by a bracketed
target, with no space or tab in between. -/
def redirBlock : List Char := chars "#REDIRECT[[T]]"

/-- Claim C4, counterexample: `redirBlock` contains `#REDIRECT` followed by a
bracketed target, so per the claim it must be dropped, yet `FilterRedirects`
passes it through because `redirectRegex` demands a space or tab after the
directive. -/
theorem c4_counterexample :
    RedirectClaimed redirBlock ∧ filterRedirects [redirBlock] = [redirBlock] := by
  constructor
  · exact ⟨[], [], chars "T", [], by decide⟩
  · decide

/-- Claim C4, amended: the filter keeps exactly the blocks without a redirect
match, in order and unchanged, and a block matches iff it contains
`#REDIRECT`, then one space or tab, then — without an intervening newline —
a bracketed target `[[…]]`; in particular `#REDIRECT [[Target]]` is dropped. -/
theorem c4_amended (bs : List (List Char)) (b : List Char) :
    filterRedirects bs = bs.filter (fun blk => !redirectMatch blk) ∧
    (redirectMatch b = true ↔ RedirectAmended b) ∧
    filterRedirects [chars "#REDIRECT [[Target]]"] = [] :=
  ⟨rfl, redirectMatch_iff_amended, by decide⟩

/-! ### C5: truncation safety -/

/-- Claim C5: a trailing line sequence containing no end marker contributes
no block: the in-progress block is discarded at end of input, and the whole
pipeline's output on the truncated dump equals its output with the trailing
partial block removed. -/
theorem c5_truncation_safety (ls ts : List (List Char))
    (h : ∀ l ∈ ts, pageEndB l = false) :
    getRawPages (ls ++ ts) = getRawPages ls ∧
    parsePipeline (ls ++ ts) = parsePipeline ls ∧
    categorizedPipeline (ls ++ ts) = categorizedPipeline ls := by
  have hraw : getRawPages (ls ++ ts) = getRawPages ls := by
    unfold getRawPages
    rw [rawRun_append, rawRun_of_no_end _ h, List.append_nil]
  refine ⟨hraw, ?_, ?_⟩
  · unfold parsePipeline
    rw [hraw]
  · unfold categorizedPipeline parsePipeline
    rw [hraw]

/-- Witness for C5: a complete page followed by a truncated page. -/
theorem c5_truncation_safety_witness :
    getRawPages ([chars "<page>", chars "t", chars "</page>"] ++ [chars "<page>", chars "x"]) =
      getRawPages [chars "<page>", chars "t", chars "</page>"] ∧
    parsePipeline ([chars "<page>", chars "t", chars "</page>"] ++ [chars "<page>", chars "x"]) =
      parsePipeline [chars "<page>", chars "t", chars "</page>"] :=
  ⟨(c5_truncation_safety _ _ (by decide)).1, (c5_truncation_safety _ _ (by decide)).2.1⟩

/-! ### C6: a start marker while inside a page -/

/-- Claim C6, counterexample: a `<page>` line arriving inside a page is not
appended to the block — the assembled block is `<page>ab</page>`, not the
`<page>a<page>b</page>` the claim's "appended verbatim" would give. -/
theorem c6_counterexample :
    pageStartB (chars "<page>") = true ∧
    getRawPages [chars "<page>", chars "a", chars "<page>", chars "b", chars "</page>"] =
      [chars "<page>ab</page>"] ∧
    chars "<page>ab</page>" ≠ chars "<page>a<page>b</page>" := by decide

/-- Claim C6, amended: a start-marker line received while inside a page is
discarded (not appended): the state stays inside-page, the buffer is
unchanged, nothing is emitted, and processing continues as if the line had
not occurred. -/
theorem c6_amended (l buf : List Char) (rest : List (List Char))
    (h : pageStartB l = true) :
    rawStep (true, buf) l = ((true, buf), none) ∧
    rawRun (l :: rest) (true, buf) = rawRun rest (true, buf) := by
  constructor
  · simp [rawStep, h]
  · simp [rawRun, rawStep, h]

/-- Witness for the amended C6 theorem. -/
theorem c6_amended_witness :
    rawStep (true, chars "<page>a") (chars "<page>") = ((true, chars "<page>a"), none) :=
  (c6_amended (chars "<page>") (chars "<page>a") [] (by decide)).1

/-! ### C7: end-to-end ordering -/

/-- Claim C7: for a dump of well-formed, non-redirecting pages P1..Pn in that
order, the plain pipeline emits exactly the pages enriched with links, and
the categorized pipeline exactly the pages enriched with links and
categories, in the same relative order. -/
theorem c7_ordering (ps : List PageSrc)
    (hwf : ∀ p ∈ ps, wellFormedSrc p)
    (hnr : ∀ p ∈ ps, redirectMatch (mkBlock p) = false) :
    parsePipeline (mkDump ps) = ps.map enrichPlain ∧
    categorizedPipeline (mkDump ps) = ps.map enrichCat := by
  have h1 : parsePipeline (mkDump ps) = ps.map enrichPlain := by
    unfold parsePipeline
    rw [getRawPages_mkDump ps hwf, filterRedirects_mkBlocks ps hnr, getPages_mkBlocks ps hwf]
    unfold getLinks
    rw [List.map_map]
    rfl
  refine ⟨h1, ?_⟩
  unfold categorizedPipeline
  rw [h1]
  unfold getCategories
  rw [List.map_map]
  rfl

/-- A first concrete source page for the end-to-end witnesses. -/
def srcA : PageSrc := ⟨chars "A", chars "[[B]] and [[Category: C |]]"⟩

/-- A second concrete source page for the end-to-end witnesses. -/
def srcB : PageSrc := ⟨chars "B", chars "plain"⟩

/-- Witness for C7 on a two-page dump. -/
theorem c7_ordering_witness :
    parsePipeline (mkDump [srcA, srcB]) = [enrichPlain srcA, enrichPlain srcB] ∧
    categorizedPipeline (mkDump [srcA, srcB]) = [enrichCat srcA, enrichCat srcB] := by
  have h := c7_ordering [srcA, srcB] (by decide) (by decide)
  simpa using h

/-! ### C8: malformed block isolation -/

theorem getPages_length_all (bs : List (List Char))
    (h : ∀ x ∈ bs, decodePage x ≠ none) : (getPages bs).length = bs.length := by
  induction bs with
  | nil => rfl
  | cons b rest ih =>
    have hb := h b (by simp)
    have hrest : ∀ x ∈ rest, decodePage x ≠ none := fun x hx => h x (by simp [hx])
    cases hd : decodePage b with
    | none => exact absurd hd hb
    | some pg =>
      simp only [getPages, List.filterMap_cons, hd, List.length_cons]
      have ih' : (List.filterMap decodePage rest).length = rest.length := ih hrest
      omega

/-- Claim C8: a block whose structural decoding fails contributes nothing and
surfaces no error — the decoder's output for N-1 well-formed blocks around
one malformed block is exactly the N-1 decoded pages, in order. -/
theorem c8_malformed_isolation (pre post : List (List Char)) (b : List Char)
    (hb : decodePage b = none)
    (hok : ∀ x ∈ pre ++ post, decodePage x ≠ none) :
    getPages (pre ++ b :: post) = getPages pre ++ getPages post ∧
    (getPages (pre ++ b :: post)).length = pre.length + post.length := by
  have hsplit : getPages (pre ++ b :: post) = getPages pre ++ getPages post := by
    unfold getPages
    rw [List.filterMap_append, List.filterMap_cons, hb]
  refine ⟨hsplit, ?_⟩
  rw [hsplit, List.length_append]
  have hpre : ∀ x ∈ pre, decodePage x ≠ none := fun x hx => hok x (by simp [hx])
  have hpost : ∀ x ∈ post, decodePage x ≠ none := fun x hx => hok x (by simp [hx])
  rw [getPages_length_all pre hpre, getPages_length_all post hpost]

/-- Witness for C8: one undecodable block between two well-formed ones. -/
theorem c8_malformed_isolation_witness :
    getPages [mkBlock srcA, chars "<page>bad</page>", mkBlock srcB] =
      getPages [mkBlock srcA] ++ getPages [mkBlock srcB] ∧
    (getPages [mkBlock srcA, chars "<page>bad</page>", mkBlock srcB]).length = 2 := by
  have h := c8_malformed_isolation [mkBlock srcA] [mkBlock srcB]
    (chars "<page>bad</page>") (by decide) (by decide)
  simpa using h

/-! ### C9: category extraction in the categorized pipeline -/

/-- A page whose body is the C9 example text `[[Category: Foo | ]]`. -/
def exPage9 : Page := ⟨chars "T", ⟨chars "[[Category: Foo | ]]"⟩, [], []⟩

/-- Claim C9: `GetCategories` replaces Categories with the `Category:`-tagged
bracketed targets of the text, prefix stripped, surrounding spaces/tabs/pipes
trimmed, in order of appearance; every emitted category is the trimming of a
nonempty newline-free `[[Category:…]]` occurrence, carries no surrounding
cutset character, and the example `[[Category: Foo | ]]` yields ["Foo"];
no other field is touched. -/
theorem c9_categories (p : Page) (cap : List Char)
    (hc : cap ∈ (getCategoriesPage p).Categories) :
    (getCategoriesPage p).Categories = (catTargets p.Revision.Text).map trimCat ∧
    (getCategoriesPage p).Title = p.Title ∧
    (getCategoriesPage p).Revision = p.Revision ∧
    (getCategoriesPage p).Links = p.Links ∧
    (∃ raw u v, p.Revision.Text = u ++ chars "[[Category:" ++ raw ++ chars "]]" ++ v ∧
      cap = trimCat raw ∧ raw ≠ [] ∧ ∀ c ∈ raw, c ≠ '\n') ∧
    dropLeading isTrimChar cap = cap ∧
    dropTrailing isTrimChar cap = cap ∧
    (getCategoriesPage exPage9).Categories = [chars "Foo"] := by
  have hc' : cap ∈ (catTargets p.Revision.Text).map trimCat := hc
  obtain ⟨raw, hraw, hcap⟩ := List.mem_map.mp hc'
  obtain ⟨u, v, hs, hne, hnl⟩ := catTargets_sound hraw
  refine ⟨rfl, rfl, rfl, rfl, ⟨raw, u, v, hs, hcap.symm, hne, hnl⟩, ?_, ?_, by decide⟩
  · rw [← hcap]
    exact trimCat_front raw
  · rw [← hcap]
    exact trimCat_back raw

/-- Witness for C9 at the example page and the category `Foo`. -/
theorem c9_categories_witness :
    (getCategoriesPage exPage9).Categories = [chars "Foo"] ∧
    ∃ raw u v, exPage9.Revision.Text = u ++ chars "[[Category:" ++ raw ++ chars "]]" ++ v ∧
      chars "Foo" = trimCat raw ∧ raw ≠ [] ∧ ∀ c ∈ raw, c ≠ '\n' :=
  ⟨(c9_categories exPage9 (chars "Foo") (by decide)).2.2.2.2.2.2.2,
   (c9_categories exPage9 (chars "Foo") (by decide)).2.2.2.2.1⟩

/-! ### C10: marker recognition -/

/-- A line containing both the start and the end marker substrings. -/
def dualLine : List Char := chars "<page></page>"

/-- Claim C10, counterexample: a line containing `</page>` (here also
containing `<page>`) is not treated as an end marker: the start branch wins,
nothing is emitted at that line, and the run assembles `<page>xy</page>`
instead of closing the block at `x`. -/
theorem c10_counterexample :
    pageEndB dualLine = true ∧
    getRawPages [chars "<page>", chars "x", dualLine, chars "y", chars "</page>"] =
      [chars "<page>xy</page>"] ∧
    chars "<page>xy</page>" ≠ chars "<page>x</page>" := by decide

/-- Claim C10, amended: marker recognition is by substring containment —
`pageStartB`/`pageEndB` hold exactly when `<page>`/`</page>` occur anywhere in
the line — every line containing `<page>` acts as a start marker, and a line
containing `</page>` closes and emits the current block only when it does not
also contain `<page>`. -/
theorem c10_amended (l buf : List Char)
    (hend : ContainsSub (chars "</page>") l) (hnostart : ¬ ContainsSub (chars "<page>") l) :
    (pageStartB l = true ↔ ContainsSub (chars "<page>") l) ∧
    (pageEndB l = true ↔ ContainsSub (chars "</page>") l) ∧
    rawStep (true, buf) l = ((false, pageSeed), some (buf ++ chars "</page>")) ∧
    (∀ l2 st, ContainsSub (chars "<page>") l2 → rawStep st l2 = ((true, st.2), none)) := by
  refine ⟨containsStr_iff _ _, containsStr_iff _ _, ?_, ?_⟩
  · have h1 : pageStartB l = false := by
      cases hh : pageStartB l
      · rfl
      · exact absurd ((containsStr_iff _ _).mp hh) hnostart
    have h2 : pageEndB l = true := (containsStr_iff _ _).mpr hend
    simp [rawStep, h1, h2]
  · intro l2 st h
    have hs : pageStartB l2 = true := (containsStr_iff _ _).mpr h
    simp [rawStep, hs]

/-- Witness for the amended C10 theorem. -/
theorem c10_amended_witness :
    rawStep (true, chars "<page>x") (chars "y</page>") =
      ((false, pageSeed), some (chars "<page>x" ++ chars "</page>")) ∧
    rawStep (true, chars "b") (chars "a<page>c") = ((true, chars "b"), none) := by
  have h := c10_amended (chars "y</page>") (chars "<page>x")
    ⟨chars "y", [], by decide⟩
    (fun hc => absurd ((containsStr_iff _ _).mpr hc) (by decide))
  exact ⟨h.2.2.1, h.2.2.2 (chars "a<page>c") (true, chars "b") ⟨chars "a", chars "c", by decide⟩⟩

end Kapok
